import Mathlib

/-
Verification of the numeric core of the ads repository (src/v1/math/gcd.rs and
src/v1/math/lcm.rs): n-ary binary GCD, extended Euclid, and the LCM fold.

Machine integers are embedded as Nat (for u64 values) and Int (for i64 values).
Unsigned arithmetic in the GCD code never overflows nor underflows (proved below),
so it is embedded as plain Nat arithmetic; the LCM fold multiplication and the
signed i64 coefficient arithmetic of extended_gcd can wrap, and are embedded with
an explicit reduction modulo 2^64 (two's complement wrapping for Int), matching
the release-mode semantics that the specification documents (overflow wraps
silently).
-/

namespace Ads

/-- Models the trailing_zeros operation of a 64-bit unsigned integer: counts how
many times the argument can be halved while it is even, with at most 64 counting
steps, so that the argument 0 yields exactly 64 as u64 trailing_zeros does. -/
def tzGo : Nat → Nat → Nat
  | 0, _ => 0
  | fuel + 1, n => if n % 2 = 0 then tzGo fuel (n / 2) + 1 else 0

/-- Trailing zero bit count of a u64 value. -/
def trailingZeros (n : Nat) : Nat := tzGo 64 n

/-- Fuel-indexed model of the subtraction and shift loop inside the fold body of
gcd_many (gcd.rs lines 54 to 62). The state (lhs, rhs) is the pair of mutable
locals at the loop head; the swap followed by the subtraction is modelled by
branching on which operand is larger after lhs is stripped of trailing zeros.
Returns none when the fuel runs out before the exit condition lhs = 0. -/
def steinLoopF : Nat → Nat → Nat → Option Nat
  | 0, _, _ => none
  | fuel + 1, lhs, rhs =>
    if lhs = 0 then some rhs
    else
      let l := lhs >>> trailingZeros lhs
      if rhs > l then steinLoopF fuel (rhs - l) l
      else steinLoopF fuel (l - rhs) rhs

/-- Model of the fold body of gcd_many (gcd.rs lines 42 to 65). The loop is given
fuel lhs + r + 1, which is always sufficient (theorem steinLoopF_correct below),
so the getD default is never taken. -/
def gcdPair (lhs rhs : Nat) : Nat :=
  if lhs = 0 ∨ rhs = 0 then lhs ||| rhs
  else
    let shift := trailingZeros (lhs ||| rhs)
    let r := rhs >>> trailingZeros rhs
    ((steinLoopF (lhs + r + 1) lhs r).getD 0) <<< shift

/-- Model of gcd_many (gcd.rs lines 33 to 66). -/
def gcd_many (elems : List Nat) : Nat :=
  match elems with
  | [] => 0
  | [x] => x
  | _ => elems.foldl (fun acc e => gcdPair acc e) 0

/-- Model of gcd (gcd.rs lines 144 to 147). -/
def gcd (lhs rhs : Nat) : Nat := gcd_many [lhs, rhs]

/-- Two's complement wrapping of an integer into the i64 range, the release-mode
semantics of Rust i64 arithmetic applied to an exact intermediate result. -/
def wrap64 (z : Int) : Int := (z + 2 ^ 63) % 2 ^ 64 - 2 ^ 63

/-- Model of the quotient-remainder loop of extended_gcd (gcd.rs lines 103 to 114).
The arguments are the six mutable locals at the loop head; the i64 coefficient
updates wrap, and the u64 cast q as i64 wraps as well. The remainder update
lhs1 - q * rhs1 never underflows because q is the integer quotient. -/
def egcdLoop (x y x1 y1 : Int) (lhs1 rhs1 : Nat) : Nat × Int × Int :=
  if h : 0 < rhs1 then
    egcdLoop x1 y1
      (wrap64 (x - wrap64 (wrap64 ((lhs1 / rhs1 : Nat) : Int) * x1)))
      (wrap64 (y - wrap64 (wrap64 ((lhs1 / rhs1 : Nat) : Int) * y1)))
      rhs1 (lhs1 - lhs1 / rhs1 * rhs1)
  else (lhs1, x, y)
termination_by rhs1
decreasing_by
  have h2 : lhs1 / rhs1 * rhs1 + lhs1 % rhs1 = lhs1 := Nat.div_add_mod' lhs1 rhs1
  have h3 := Nat.mod_lt lhs1 h
  omega

/-- Model of extended_gcd (gcd.rs lines 99 to 117). -/
def extended_gcd (lhs rhs : Nat) : Nat × Int × Int := egcdLoop 1 0 0 1 lhs rhs

/-- Fuel-indexed variant of the extended_gcd loop, used to state that the loop
reaches its exit condition within rhs1 + 1 iterations. -/
def egcdLoopF : Nat → Int → Int → Int → Int → Nat → Nat → Option (Nat × Int × Int)
  | 0, _, _, _, _, _, _ => none
  | fuel + 1, x, y, x1, y1, lhs1, rhs1 =>
    if 0 < rhs1 then
      egcdLoopF fuel x1 y1
        (wrap64 (x - wrap64 (wrap64 ((lhs1 / rhs1 : Nat) : Int) * x1)))
        (wrap64 (y - wrap64 (wrap64 ((lhs1 / rhs1 : Nat) : Int) * y1)))
        rhs1 (lhs1 - lhs1 / rhs1 * rhs1)
    else some (lhs1, x, y)

/-- Wrapping u64 multiplication, the release-mode semantics of the multiplication
in the LCM fold; the specification documents that this overflow wraps silently. -/
def mul64 (a b : Nat) : Nat := a * b % 2 ^ 64

/-- Model of lcm_many (lcm.rs lines 33 to 50). -/
def lcm_many (elems : List Nat) : Nat :=
  match elems with
  | [] => 0
  | [x] => x
  | e0 :: rest =>
    let g := gcd_many (e0 :: rest)
    if g = 0 then 0
    else rest.foldl (fun acc e => mul64 acc e) (e0 / g)

/-- Model of lcm (lcm.rs lines 77 to 80). -/
def lcm (lhs rhs : Nat) : Nat := lcm_many [lhs, rhs]

/-- Modelled from the spec: the alternative fold named in the open question of the
design notes, which divides every element by the GCD before multiplying, instead
of dividing only the seed element. -/
def lcm_many_alldiv (elems : List Nat) : Nat :=
  match elems with
  | [] => 0
  | [x] => x
  | e0 :: rest =>
    let g := gcd_many (e0 :: rest)
    if g = 0 then 0
    else rest.foldl (fun acc e => mul64 acc (e / g)) (e0 / g)

/-- Checked variant of the subtraction and shift loop: fails (returns none) if a
right shift amount exceeds 63 or if a subtraction would underflow at the point
where the code performs it, after the conditional swap. -/
def steinCheckedF : Nat → Nat → Nat → Option Nat
  | 0, _, _ => none
  | fuel + 1, lhs, rhs =>
    if lhs = 0 then some rhs
    else
      let t := trailingZeros lhs
      if 63 < t then none
      else
        let l := lhs >>> t
        if rhs > l then
          if l ≤ rhs then steinCheckedF fuel (rhs - l) l else none
        else
          if rhs ≤ l then steinCheckedF fuel (l - rhs) rhs else none

/-- Checked variant of the fold body of gcd_many: fails (returns none) if any
shift amount exceeds 63, if any subtraction in the loop would underflow, or if
the final left shift overflows the u64 range. -/
def gcdPairChecked (lhs rhs : Nat) : Option Nat :=
  if lhs = 0 ∨ rhs = 0 then some (lhs ||| rhs)
  else
    let shift := trailingZeros (lhs ||| rhs)
    if 63 < shift then none
    else
      let t := trailingZeros rhs
      if 63 < t then none
      else
        let r := rhs >>> t
        match steinCheckedF (lhs + r + 1) lhs r with
        | none => none
        | some v => if v <<< shift < 2 ^ 64 then some (v <<< shift) else none

/-! Trailing zero count: factorization into an odd part times a power of two. -/

theorem tzGo_spec : ∀ fuel n, 0 < n → n < 2 ^ fuel →
    ∃ m, m % 2 = 1 ∧ n = m * 2 ^ tzGo fuel n := by
  intro fuel
  induction fuel with
  | zero =>
    intro n h1 h2
    simp at h2
    omega
  | succ fuel ih =>
    intro n h1 h2
    by_cases hpar : n % 2 = 0
    · have hn1 : 0 < n / 2 := by omega
      have hpow : 2 ^ (fuel + 1) = 2 * 2 ^ fuel := by rw [pow_succ]; ring
      have hn2 : n / 2 < 2 ^ fuel := by omega
      obtain ⟨m, hm, hmeq⟩ := ih (n / 2) hn1 hn2
      have ht : tzGo (fuel + 1) n = tzGo fuel (n / 2) + 1 := by
        simp [tzGo, hpar]
      refine ⟨m, hm, ?_⟩
      rw [ht]
      have hh : m * 2 ^ (tzGo fuel (n / 2) + 1) = 2 * (m * 2 ^ tzGo fuel (n / 2)) := by
        ring
      omega
    · refine ⟨n, by omega, ?_⟩
      have ht : tzGo (fuel + 1) n = 0 := by simp [tzGo, hpar]
      rw [ht]
      simp

theorem trailingZeros_spec (n : Nat) (h1 : 0 < n) (h2 : n < 2 ^ 64) :
    ∃ m, m % 2 = 1 ∧ n = m * 2 ^ trailingZeros n :=
  tzGo_spec 64 n h1 h2

theorem trailingZeros_le_63 (n : Nat) (h1 : 0 < n) (h2 : n < 2 ^ 64) :
    trailingZeros n ≤ 63 := by
  obtain ⟨m, hm, hmeq⟩ := trailingZeros_spec n h1 h2
  by_contra hcon
  push_neg at hcon
  have h64 : 2 ^ 64 ≤ 2 ^ trailingZeros n := Nat.pow_le_pow_right (by omega) (by omega)
  have hle : 1 * 2 ^ trailingZeros n ≤ m * 2 ^ trailingZeros n :=
    Nat.mul_le_mul_right _ (by omega)
  omega

theorem odd_factor_unique : ∀ k t m m2 : Nat, m % 2 = 1 → m2 % 2 = 1 →
    m * 2 ^ k = m2 * 2 ^ t → k = t := by
  intro k
  induction k with
  | zero =>
    intro t m m2 hm hm2 heq
    cases t with
    | zero => rfl
    | succ s =>
      exfalso
      rw [pow_zero, mul_one, pow_succ] at heq
      have hr : m2 * (2 ^ s * 2) = 2 * (m2 * 2 ^ s) := by ring
      omega
  | succ k ih =>
    intro t m m2 hm hm2 heq
    cases t with
    | zero =>
      exfalso
      rw [pow_zero, mul_one, pow_succ] at heq
      have hr : m * (2 ^ k * 2) = 2 * (m * 2 ^ k) := by ring
      omega
    | succ s =>
      have hstep : m * 2 ^ k = m2 * 2 ^ s := by
        rw [pow_succ, pow_succ] at heq
        have hr1 : m * (2 ^ k * 2) = 2 * (m * 2 ^ k) := by ring
        have hr2 : m2 * (2 ^ s * 2) = 2 * (m2 * 2 ^ s) := by ring
        omega
      have := ih s m m2 hm hm2 hstep
      omega

theorem tz_eq_of_factor (n k m : Nat) (h2 : n < 2 ^ 64) (hm : m % 2 = 1)
    (heq : n = m * 2 ^ k) : trailingZeros n = k := by
  have hp : 0 < 2 ^ k := Nat.two_pow_pos k
  have h1 : 0 < n := by
    have h3 : 1 * 2 ^ k ≤ m * 2 ^ k := Nat.mul_le_mul_right _ (by omega)
    omega
  obtain ⟨m2, hm2, heq2⟩ := trailingZeros_spec n h1 h2
  exact odd_factor_unique _ _ _ _ hm2 hm (by rw [← heq2, heq])

theorem or_shiftLeft_distrib (x y k : Nat) :
    (x <<< k) ||| (y <<< k) = (x ||| y) <<< k := by
  apply Nat.eq_of_testBit_eq
  intro i
  simp [Nat.testBit_or, Nat.testBit_shiftLeft, Bool.and_or_distrib_left]

theorem or_odd_left (x y : Nat) (hx : x % 2 = 1) : (x ||| y) % 2 = 1 := by
  have h0 : (x ||| y).testBit 0 = (x.testBit 0 || y.testBit 0) := Nat.testBit_or x y 0
  have hx0 : x.testBit 0 = true := by
    rw [Nat.testBit_zero, hx]
    decide
  rw [hx0, Bool.true_or, Nat.testBit_zero] at h0
  exact of_decide_eq_true h0

theorem or_factor (m m2 ta tb : Nat) (h : ta ≤ tb) :
    (m * 2 ^ ta) ||| (m2 * 2 ^ tb) = (m ||| m2 * 2 ^ (tb - ta)) * 2 ^ ta := by
  have he : tb - ta + ta = tb := by omega
  have hsplit : m2 * 2 ^ tb = m2 * 2 ^ (tb - ta) * 2 ^ ta := by
    rw [mul_assoc, ← pow_add, he]
  rw [hsplit, ← Nat.shiftLeft_eq m ta, ← Nat.shiftLeft_eq (m2 * 2 ^ (tb - ta)) ta,
    ← Nat.shiftLeft_eq (m ||| m2 * 2 ^ (tb - ta)) ta]
  exact or_shiftLeft_distrib _ _ _

theorem tz_or_le_aux (a b : Nat) (ha : 0 < a) (hb : 0 < b)
    (ha2 : a < 2 ^ 64) (hb2 : b < 2 ^ 64)
    (hab : trailingZeros a ≤ trailingZeros b) :
    trailingZeros (a ||| b) = trailingZeros a := by
  obtain ⟨m, hm, hme⟩ := trailingZeros_spec a ha ha2
  obtain ⟨m2, hm2, hme2⟩ := trailingZeros_spec b hb hb2
  have hor : a ||| b =
      (m ||| m2 * 2 ^ (trailingZeros b - trailingZeros a)) * 2 ^ trailingZeros a := by
    conv_lhs => rw [hme, hme2]
    exact or_factor m m2 _ _ hab
  have hoddm : (m ||| m2 * 2 ^ (trailingZeros b - trailingZeros a)) % 2 = 1 :=
    or_odd_left _ _ hm
  have hab2 : a ||| b < 2 ^ 64 := Nat.or_lt_two_pow ha2 hb2
  exact tz_eq_of_factor _ _ _ hab2 hoddm hor

theorem tz_or (a b : Nat) (ha : 0 < a) (hb : 0 < b)
    (ha2 : a < 2 ^ 64) (hb2 : b < 2 ^ 64) :
    trailingZeros (a ||| b) = min (trailingZeros a) (trailingZeros b) := by
  rcases le_total (trailingZeros a) (trailingZeros b) with h | h
  · rw [tz_or_le_aux a b ha hb ha2 hb2 h]
    omega
  · rw [Nat.or_comm, tz_or_le_aux b a hb ha hb2 ha2 h]
    omega

theorem oddPart_spec (n : Nat) (h1 : 0 < n) (h2 : n < 2 ^ 64) :
    (n >>> trailingZeros n) % 2 = 1 ∧
      (n >>> trailingZeros n) * 2 ^ trailingZeros n = n ∧
      0 < n >>> trailingZeros n := by
  obtain ⟨m, hm, hme⟩ := trailingZeros_spec n h1 h2
  set t := trailingZeros n with ht
  have hp : 0 < 2 ^ t := Nat.two_pow_pos _
  have hdiv : n >>> t = m := by
    rw [Nat.shiftRight_eq_div_pow, hme, Nat.mul_div_cancel _ hp]
  rw [hdiv]
  exact ⟨hm, hme.symm, by omega⟩

/-! Correctness of the Stein subtraction and shift loop. -/

theorem coprime_two_of_odd (r : Nat) (hr : r % 2 = 1) : Nat.Coprime 2 r := by
  show Nat.gcd 2 r = 1
  rw [Nat.gcd_rec, hr]
  exact Nat.gcd_one_left 2

theorem gcd_strip_left (m t r : Nat) (hr : r % 2 = 1) :
    Nat.gcd (m * 2 ^ t) r = Nat.gcd m r := by
  have hp : Nat.Coprime (2 ^ t) r := Nat.Coprime.pow_left t (coprime_two_of_odd r hr)
  rw [mul_comm]
  exact Nat.Coprime.gcd_mul_left_cancel m hp

theorem gcd_oddPart_left (lhs rhs l t : Nat) (hfac : l * 2 ^ t = lhs)
    (hodd : rhs % 2 = 1) : Nat.gcd l rhs = Nat.gcd lhs rhs := by
  subst hfac
  exact (gcd_strip_left l t rhs hodd).symm

theorem oddPart_le (n : Nat) : n >>> trailingZeros n ≤ n := by
  rw [Nat.shiftRight_eq_div_pow]
  exact Nat.div_le_self _ _

theorem steinLoopF_correct : ∀ fuel lhs rhs, rhs % 2 = 1 → lhs < 2 ^ 64 →
    rhs < 2 ^ 64 → lhs + rhs + 1 ≤ fuel →
    steinLoopF fuel lhs rhs = some (Nat.gcd lhs rhs) := by
  intro fuel
  induction fuel with
  | zero =>
    intro lhs rhs h1 h2 h3 h4
    omega
  | succ fuel ih =>
    intro lhs rhs hodd hl hr hfuel
    by_cases hz : lhs = 0
    · subst hz
      simp [steinLoopF]
    · have hlpos : 0 < lhs := by omega
      obtain ⟨hlodd, hlfac, hlpos2⟩ := oddPart_spec lhs hlpos hl
      have hgcdl : Nat.gcd (lhs >>> trailingZeros lhs) rhs = Nat.gcd lhs rhs :=
        gcd_oddPart_left lhs rhs _ _ hlfac hodd
      have hstep : steinLoopF (fuel + 1) lhs rhs =
          (if rhs > lhs >>> trailingZeros lhs
           then steinLoopF fuel (rhs - lhs >>> trailingZeros lhs) (lhs >>> trailingZeros lhs)
           else steinLoopF fuel (lhs >>> trailingZeros lhs - rhs) rhs) := by
        simp [steinLoopF, hz]
      rw [hstep]
      have hle : lhs >>> trailingZeros lhs ≤ lhs := oddPart_le lhs
      by_cases hcase : rhs > lhs >>> trailingZeros lhs
      · rw [if_pos hcase]
        have hv : Nat.gcd (rhs - lhs >>> trailingZeros lhs) (lhs >>> trailingZeros lhs) =
            Nat.gcd lhs rhs := by
          rw [Nat.gcd_sub_self_left (le_of_lt hcase), Nat.gcd_comm]
          exact hgcdl
        rw [ih _ _ hlodd (by omega) (by omega) (by omega), hv]
      · rw [if_neg hcase]
        push_neg at hcase
        have hv : Nat.gcd (lhs >>> trailingZeros lhs - rhs) rhs = Nat.gcd lhs rhs := by
          rw [Nat.gcd_sub_self_left hcase]
          exact hgcdl
        rw [ih _ _ hodd (by omega) (by omega) (by omega), hv]

theorem gcd_factor_aux (u v a b : Nat) (hu : u % 2 = 1) (h : a ≤ b) :
    Nat.gcd (u * 2 ^ a) (v * 2 ^ b) = Nat.gcd u v * 2 ^ a := by
  have he : b - a + a = b := by omega
  have hsplit : v * 2 ^ b = v * 2 ^ (b - a) * 2 ^ a := by
    rw [mul_assoc, ← pow_add, he]
  rw [hsplit, Nat.gcd_mul_right]
  congr 1
  rw [Nat.gcd_comm, gcd_strip_left v (b - a) u hu, Nat.gcd_comm]

theorem gcd_oddPart_shift (a b : Nat) (hapos : 0 < a) (hbpos : 0 < b)
    (ha : a < 2 ^ 64) (hb : b < 2 ^ 64) :
    Nat.gcd a (b >>> trailingZeros b) * 2 ^ min (trailingZeros a) (trailingZeros b) =
      Nat.gcd a b := by
  obtain ⟨huodd, hufac, hupos⟩ := oddPart_spec a hapos ha
  obtain ⟨hvodd, hvfac, hvpos⟩ := oddPart_spec b hbpos hb
  rcases le_total (trailingZeros a) (trailingZeros b) with h | h
  · rw [min_eq_left h]
    conv_rhs => rw [← hufac, ← hvfac]
    rw [gcd_factor_aux _ _ _ _ huodd h]
    congr 1
    conv_lhs => rw [← hufac]
    exact gcd_strip_left _ _ _ hvodd
  · rw [min_eq_right h]
    conv_rhs => rw [← hufac, ← hvfac, Nat.gcd_comm]
    rw [gcd_factor_aux _ _ _ _ hvodd h]
    congr 1
    conv_lhs => rw [← hufac]
    rw [gcd_strip_left _ _ _ hvodd]
    exact Nat.gcd_comm _ _

theorem gcdPair_eq_gcd (a b : Nat) (ha : a < 2 ^ 64) (hb : b < 2 ^ 64) :
    gcdPair a b = Nat.gcd a b := by
  by_cases hz : a = 0 ∨ b = 0
  · rcases hz with h | h
    · subst h
      simp [gcdPair]
    · subst h
      simp [gcdPair]
  · push_neg at hz
    obtain ⟨ha0, hb0⟩ := hz
    have hapos : 0 < a := by omega
    have hbpos : 0 < b := by omega
    obtain ⟨hbodd, hbfac, hbpos2⟩ := oddPart_spec b hbpos hb
    have hble : b >>> trailingZeros b ≤ b := oddPart_le b
    have hstein := steinLoopF_correct (a + b >>> trailingZeros b + 1) a
      (b >>> trailingZeros b) hbodd ha (by omega) (by omega)
    have hunf : gcdPair a b =
        ((steinLoopF (a + b >>> trailingZeros b + 1) a (b >>> trailingZeros b)).getD 0) <<<
          trailingZeros (a ||| b) := by
      simp [gcdPair, ha0, hb0]
    rw [hunf, hstein]
    simp only [Option.getD_some]
    rw [Nat.shiftLeft_eq, tz_or a b hapos hbpos ha hb]
    exact gcd_oddPart_shift a b hapos hbpos ha hb

/-! The n-ary fold computes the gcd of the whole sequence. -/

theorem foldl_gcdPair_eq_gcd (L : List Nat) : ∀ acc, acc < 2 ^ 64 →
    (∀ e ∈ L, e < 2 ^ 64) →
    L.foldl (fun acc e => gcdPair acc e) acc = L.foldl Nat.gcd acc := by
  induction L with
  | nil =>
    intro acc h1 h2
    rfl
  | cons x L ih =>
    intro acc h1 h2
    have hx : x < 2 ^ 64 := h2 x (by simp)
    have hg : Nat.gcd acc x < 2 ^ 64 := by
      rcases Nat.eq_zero_or_pos x with h | h
      · subst h
        simpa using h1
      · have := Nat.gcd_le_right (m := acc) x h
        omega
    simp only [List.foldl_cons]
    rw [gcdPair_eq_gcd acc x h1 hx]
    exact ih (Nat.gcd acc x) hg (fun e he => h2 e (by simp [he]))

theorem foldl_gcd_dvd : ∀ (L : List Nat) (a : Nat),
    (L.foldl Nat.gcd a ∣ a) ∧ ∀ e ∈ L, L.foldl Nat.gcd a ∣ e := by
  intro L
  induction L with
  | nil =>
    intro a
    simp
  | cons x L ih =>
    intro a
    simp only [List.foldl_cons]
    obtain ⟨h1, h2⟩ := ih (Nat.gcd a x)
    refine ⟨h1.trans (Nat.gcd_dvd_left a x), ?_⟩
    intro e he
    rcases List.mem_cons.mp he with h | h
    · subst h
      exact h1.trans (Nat.gcd_dvd_right a e)
    · exact h2 e h

theorem dvd_foldl_gcd : ∀ (L : List Nat) (a d : Nat), d ∣ a → (∀ e ∈ L, d ∣ e) →
    d ∣ L.foldl Nat.gcd a := by
  intro L
  induction L with
  | nil =>
    intro a d h1 h2
    simpa using h1
  | cons x L ih =>
    intro a d h1 h2
    simp only [List.foldl_cons]
    exact ih _ d (Nat.dvd_gcd h1 (h2 x (by simp))) (fun e he => h2 e (by simp [he]))

theorem gcd_many_eq_foldl (S : List Nat) (hS : ∀ e ∈ S, e < 2 ^ 64) :
    gcd_many S = S.foldl Nat.gcd 0 := by
  match S with
  | [] => rfl
  | [x] =>
    simp [gcd_many]
  | a :: b :: T =>
    show (a :: b :: T).foldl (fun acc e => gcdPair acc e) 0 = (a :: b :: T).foldl Nat.gcd 0
    exact foldl_gcdPair_eq_gcd _ 0 (Nat.two_pow_pos 64) hS

theorem gcd_eq_nat_gcd (a b : Nat) (ha : a < 2 ^ 64) (hb : b < 2 ^ 64) :
    gcd a b = Nat.gcd a b := by
  show gcd_many [a, b] = Nat.gcd a b
  rw [gcd_many_eq_foldl [a, b] (by
    intro e he
    simp at he
    rcases he with h | h <;> omega)]
  simp

/-- Claim C1: for every non-empty sequence S of u64 values, gcd_many of S divides
every element of S; when some element is nonzero it is the largest integer dividing
every element; and for an all-zero sequence the result is 0. -/
theorem claim_c1_gcd_many (S : List Nat) (hne : S ≠ [])
    (hbound : ∀ e ∈ S, e < 2 ^ 64) :
    (∀ e ∈ S, gcd_many S ∣ e) ∧
      ((∃ e ∈ S, e ≠ 0) → ∀ d, (∀ e ∈ S, d ∣ e) → d ≤ gcd_many S) ∧
      ((∀ e ∈ S, e = 0) → gcd_many S = 0) := by
  have heq := gcd_many_eq_foldl S hbound
  obtain ⟨hinit, hdvd⟩ := foldl_gcd_dvd S 0
  refine ⟨?_, ?_, ?_⟩
  · intro e he
    rw [heq]
    exact hdvd e he
  · rintro ⟨e0, he0, he0ne⟩ d hd
    have hdg : d ∣ gcd_many S := by
      rw [heq]
      exact dvd_foldl_gcd S 0 d (dvd_zero d) hd
    have hgne : gcd_many S ≠ 0 := by
      intro hc
      have h2 := hdvd e0 he0
      rw [← heq, hc] at h2
      exact he0ne (Nat.eq_zero_of_zero_dvd h2)
    exact Nat.le_of_dvd (Nat.pos_of_ne_zero hgne) hdg
  · intro hall
    rw [heq]
    have h0 : (0 : Nat) ∣ S.foldl Nat.gcd 0 :=
      dvd_foldl_gcd S 0 0 (dvd_refl 0) (fun e he => by rw [hall e he])
    exact Nat.eq_zero_of_zero_dvd h0

theorem claim_c1_witness :
    ([42, 8, 144] : List Nat) ≠ [] ∧
      (∀ e ∈ ([42, 8, 144] : List Nat), gcd_many [42, 8, 144] ∣ e) :=
  ⟨by decide, (claim_c1_gcd_many [42, 8, 144] (by decide) (by decide)).1⟩

/-- Claim C7: gcd_many and lcm_many return 0 on the empty sequence and return the
element itself on a singleton sequence, for every u64 value x. -/
theorem claim_c7_edge (x : Nat) :
    gcd_many [] = 0 ∧ gcd_many [x] = x ∧ lcm_many [] = 0 ∧ lcm_many [x] = x :=
  ⟨rfl, rfl, rfl, rfl⟩

/-! The LCM fold computes the full product divided once by the n-ary gcd,
reduced modulo 2^64. -/

theorem foldl_mul64 (L : List Nat) : ∀ a, a < 2 ^ 64 →
    L.foldl (fun acc e => mul64 acc e) a = (a * L.prod) % 2 ^ 64 := by
  induction L with
  | nil =>
    intro a h
    simp only [List.foldl_nil, List.prod_nil, mul_one]
    exact (Nat.mod_eq_of_lt h).symm
  | cons x L ih =>
    intro a h
    simp only [List.foldl_cons, List.prod_cons]
    rw [ih (mul64 a x) (Nat.mod_lt _ (Nat.two_pow_pos 64))]
    show (a * x % 2 ^ 64) * L.prod % 2 ^ 64 = a * (x * L.prod) % 2 ^ 64
    rw [Nat.mod_mul_mod, mul_assoc]

theorem lcm_many_prod_formula (S : List Nat) (hlen : 2 ≤ S.length)
    (hbound : ∀ e ∈ S, e < 2 ^ 64) (hg : gcd_many S ≠ 0) :
    lcm_many S = (S.prod / gcd_many S) % 2 ^ 64 := by
  rcases S with _ | ⟨e0, S1⟩
  · simp at hlen
  rcases S1 with _ | ⟨e1, T⟩
  · simp at hlen
  have hunf : lcm_many (e0 :: e1 :: T) =
      (e1 :: T).foldl (fun acc e => mul64 acc e) (e0 / gcd_many (e0 :: e1 :: T)) := by
    simp [lcm_many, hg]
  have heq := gcd_many_eq_foldl (e0 :: e1 :: T) hbound
  have hdvd0 : gcd_many (e0 :: e1 :: T) ∣ e0 := by
    rw [heq]
    exact (foldl_gcd_dvd (e0 :: e1 :: T) 0).2 e0 (by simp)
  set g := gcd_many (e0 :: e1 :: T) with hgdef
  have hgpos : 0 < g := Nat.pos_of_ne_zero hg
  obtain ⟨k, hk⟩ := hdvd0
  have he0div : e0 / g = k := by
    rw [hk, Nat.mul_div_cancel_left k hgpos]
  have he0lt : e0 / g < 2 ^ 64 := by
    have h1 : e0 / g ≤ e0 := Nat.div_le_self _ _
    have h2 : e0 < 2 ^ 64 := hbound e0 (by simp)
    omega
  rw [hunf, foldl_mul64 _ _ he0lt]
  congr 1
  rw [he0div]
  conv_rhs => rw [List.prod_cons, hk, mul_assoc]
  rw [Nat.mul_div_cancel_left _ hgpos]

theorem elem_dvd_prod_div_gcd (S : List Nat) (hlen : 2 ≤ S.length)
    (hbound : ∀ e ∈ S, e < 2 ^ 64) (hg : gcd_many S ≠ 0) :
    ∀ e ∈ S, e ∣ S.prod / gcd_many S := by
  intro e he
  have hperm : S.Perm (e :: S.erase e) := List.perm_cons_erase he
  have hprod : S.prod = e * (S.erase e).prod := by
    rw [hperm.prod_eq, List.prod_cons]
  have hlen2 : 1 ≤ (S.erase e).length := by
    have := List.length_erase_of_mem he
    omega
  obtain ⟨f, hf⟩ := List.exists_mem_of_ne_nil (S.erase e) (by
    intro hc
    rw [hc] at hlen2
    simp at hlen2)
  have heq := gcd_many_eq_foldl S hbound
  have hgf : gcd_many S ∣ f := by
    rw [heq]
    exact (foldl_gcd_dvd S 0).2 f (List.mem_of_mem_erase hf)
  have hgprod : gcd_many S ∣ (S.erase e).prod := hgf.trans (List.dvd_prod hf)
  have hgpos : 0 < gcd_many S := Nat.pos_of_ne_zero hg
  obtain ⟨k, hk⟩ := hgprod
  have hdivval : S.prod / gcd_many S = e * k := by
    rw [hprod, hk, ← mul_assoc, mul_comm e (gcd_many S), mul_assoc,
      Nat.mul_div_cancel_left _ hgpos]
  rw [hdivval]
  exact dvd_mul_right e k

/-- Claim C3 at the failing input: lcm_many of [2, 4, 8] returns 32, yet 8 is a
positive common multiple of all three elements and is smaller than 32, so the
returned value is not the least common multiple that the claim promises. -/
theorem claim_c3_failing : lcm_many [2, 4, 8] = 32 ∧
    (∀ e ∈ ([2, 4, 8] : List Nat), e ∣ 8) ∧ (0 : Nat) < 8 ∧ (8 : Nat) < 32 := by
  decide

/-- Claim C4 counterexample: with the wrapping multiplication of the fold, the
element 3 of [3, 2 to the 63] does not divide lcm_many of that input even though
that value is nonzero, refuting the divisibility claim as stated. -/
theorem claim_c4_counterexample :
    lcm_many [3, 2 ^ 63] ≠ 0 ∧ ¬ (3 ∣ lcm_many [3, 2 ^ 63]) := by
  decide

/-- Claim C4 amended: when the exact product divided by the gcd stays below 2^64,
so that no multiplication wraps, every element of a non-empty sequence divides
lcm_many of the sequence whenever that value is nonzero. -/
theorem claim_c4_amended (S : List Nat) (hne : S ≠ [])
    (hbound : ∀ e ∈ S, e < 2 ^ 64)
    (hnov : S.prod / gcd_many S < 2 ^ 64)
    (hnz : lcm_many S ≠ 0) :
    ∀ e ∈ S, e ∣ lcm_many S := by
  rcases S with _ | ⟨e0, S1⟩
  · simp at hne
  rcases S1 with _ | ⟨e1, T⟩
  · intro e he
    simp at he
    subst he
    have hx : lcm_many [e] = e := rfl
    rw [hx]
  · by_cases hg : gcd_many (e0 :: e1 :: T) = 0
    · exfalso
      apply hnz
      simp [lcm_many, hg]
    · have hl : 2 ≤ (e0 :: e1 :: T).length := by
        simp [List.length_cons]
      have hform := lcm_many_prod_formula (e0 :: e1 :: T) hl hbound hg
      rw [hform, Nat.mod_eq_of_lt hnov]
      exact elem_dvd_prod_div_gcd _ hl hbound hg

theorem claim_c4_witness :
    ([8, 24, 156, 36] : List Nat) ≠ [] ∧
      ∀ e ∈ ([8, 24, 156, 36] : List Nat), e ∣ lcm_many [8, 24, 156, 36] :=
  ⟨by decide, claim_c4_amended [8, 24, 156, 36] (by decide) (by decide)
    (by decide) (by decide)⟩

/-- Claim C5 counterexample: on the input [4, 6] the fold of lcm_many, which
divides only the seed element by the gcd, returns 12, while dividing every
element by the gcd before multiplying returns 6, so the two computations are
not equivalent. -/
theorem claim_c5_counterexample :
    lcm_many [4, 6] = 12 ∧ lcm_many_alldiv [4, 6] = 6 ∧
      lcm_many [4, 6] ≠ lcm_many_alldiv [4, 6] := by
  decide

/-- Claim C5 amended: the seed-divided fold computes the full product divided
exactly once by the gcd, modulo 2^64; the all-divided fold agrees with it only
in special situations such as gcd equal to 1. -/
theorem claim_c5_amended (S : List Nat) (hlen : 2 ≤ S.length)
    (hbound : ∀ e ∈ S, e < 2 ^ 64) (hg : gcd_many S ≠ 0) :
    lcm_many S = (S.prod / gcd_many S) % 2 ^ 64 ∧
      (gcd_many S = 1 → lcm_many_alldiv S = lcm_many S) := by
  refine ⟨lcm_many_prod_formula S hlen hbound hg, ?_⟩
  intro h1
  rcases S with _ | ⟨e0, S1⟩
  · simp at hlen
  rcases S1 with _ | ⟨e1, T⟩
  · simp at hlen
  have hunf1 : lcm_many_alldiv (e0 :: e1 :: T) =
      (e1 :: T).foldl (fun acc e => mul64 acc (e / gcd_many (e0 :: e1 :: T)))
        (e0 / gcd_many (e0 :: e1 :: T)) := by
    simp [lcm_many_alldiv, hg]
  have hunf2 : lcm_many (e0 :: e1 :: T) =
      (e1 :: T).foldl (fun acc e => mul64 acc e) (e0 / gcd_many (e0 :: e1 :: T)) := by
    simp [lcm_many, hg]
  rw [hunf1, hunf2, h1]
  simp [Nat.div_one]

theorem claim_c5_witness :
    lcm_many [4, 6] = (([4, 6] : List Nat).prod / gcd_many [4, 6]) % 2 ^ 64 ∧
      (gcd_many [4, 6] = 1 → lcm_many_alldiv [4, 6] = lcm_many [4, 6]) :=
  claim_c5_amended [4, 6] (by decide) (by decide) (by decide)

/-- Claim C10: for sequences of length at least two whose n-ary gcd is nonzero,
lcm_many equals the product of all elements divided by that gcd, with the
multiplications taken modulo 2^64, and the result does not depend on the order
of the elements. -/
theorem claim_c10_product (S : List Nat) (hlen : 2 ≤ S.length)
    (hbound : ∀ e ∈ S, e < 2 ^ 64) (hg : gcd_many S ≠ 0) :
    lcm_many S = (S.prod / gcd_many S) % 2 ^ 64 ∧
      ∀ T, S.Perm T → lcm_many S = lcm_many T := by
  refine ⟨lcm_many_prod_formula S hlen hbound hg, ?_⟩
  intro T hperm
  have hlen2 : 2 ≤ T.length := by
    rw [← hperm.length_eq]
    exact hlen
  have hboundT : ∀ e ∈ T, e < 2 ^ 64 := fun e he => hbound e (hperm.mem_iff.mpr he)
  have hgcdeq : gcd_many S = gcd_many T := by
    rw [gcd_many_eq_foldl S hbound, gcd_many_eq_foldl T hboundT]
    exact hperm.foldl_eq' (fun x hx y hy z => by
      rw [Nat.gcd_assoc, Nat.gcd_assoc, Nat.gcd_comm x y]) 0
  have hgT : gcd_many T ≠ 0 := by
    rw [← hgcdeq]
    exact hg
  rw [lcm_many_prod_formula S hlen hbound hg,
    lcm_many_prod_formula T hlen2 hboundT hgT, hgcdeq, hperm.prod_eq]

theorem claim_c10_witness :
    lcm_many [25, 105, 235, 100] =
        (([25, 105, 235, 100] : List Nat).prod / gcd_many [25, 105, 235, 100]) % 2 ^ 64 ∧
      ∀ T, ([25, 105, 235, 100] : List Nat).Perm T →
        lcm_many [25, 105, 235, 100] = lcm_many T :=
  claim_c10_product [25, 105, 235, 100] (by decide) (by decide) (by decide)

/-! Safety of the binary gcd reduction: the checked variant, which fails on any
underflowing subtraction, out-of-range shift amount, or overflowing final shift,
always succeeds on u64 operands. -/

theorem or_pos_left (a b : Nat) (ha : 0 < a) : 0 < a ||| b := by
  rcases Nat.eq_zero_or_pos (a ||| b) with h | h
  · exfalso
    have haz : a = 0 := by
      apply Nat.eq_of_testBit_eq
      intro i
      have h2 : (a ||| b).testBit i = false := by
        rw [h]
        exact Nat.zero_testBit i
      rw [Nat.testBit_or] at h2
      simp at h2
      rw [h2.1, Nat.zero_testBit]
    omega
  · exact h

theorem steinCheckedF_eq : ∀ fuel lhs rhs, lhs < 2 ^ 64 → rhs < 2 ^ 64 →
    steinCheckedF fuel lhs rhs = steinLoopF fuel lhs rhs := by
  intro fuel
  induction fuel with
  | zero =>
    intro lhs rhs h1 h2
    rfl
  | succ fuel ih =>
    intro lhs rhs h1 h2
    by_cases hz : lhs = 0
    · subst hz
      simp [steinCheckedF, steinLoopF]
    · have hlpos : 0 < lhs := by omega
      have ht : trailingZeros lhs ≤ 63 := trailingZeros_le_63 lhs hlpos h1
      have hle : lhs >>> trailingZeros lhs ≤ lhs := oddPart_le lhs
      by_cases hcase : rhs > lhs >>> trailingZeros lhs
      · have hA : steinCheckedF (fuel + 1) lhs rhs =
            steinCheckedF fuel (rhs - lhs >>> trailingZeros lhs)
              (lhs >>> trailingZeros lhs) := by
          simp [steinCheckedF, hz, hcase, Nat.not_lt.mpr ht, le_of_lt hcase]
        have hB : steinLoopF (fuel + 1) lhs rhs =
            steinLoopF fuel (rhs - lhs >>> trailingZeros lhs)
              (lhs >>> trailingZeros lhs) := by
          simp [steinLoopF, hz, hcase]
        have hsub1 : rhs - lhs >>> trailingZeros lhs ≤ rhs := Nat.sub_le _ _
        rw [hA, hB]
        exact ih _ _ (by omega) (by omega)
      · have hA : steinCheckedF (fuel + 1) lhs rhs =
            steinCheckedF fuel (lhs >>> trailingZeros lhs - rhs) rhs := by
          simp [steinCheckedF, hz, hcase, Nat.not_lt.mpr ht, Nat.not_lt.mp hcase]
        have hB : steinLoopF (fuel + 1) lhs rhs =
            steinLoopF fuel (lhs >>> trailingZeros lhs - rhs) rhs := by
          simp [steinLoopF, hz, hcase]
        have hsub2 : lhs >>> trailingZeros lhs - rhs ≤ lhs >>> trailingZeros lhs :=
          Nat.sub_le _ _
        rw [hA, hB]
        exact ih _ _ (by omega) (by omega)

/-- Claim C8: on nonzero u64 operands the checked variant of the fold body, which
fails on any subtraction of a larger value from a smaller one, on any shift amount
above 63, and on an overflowing final left shift, runs to completion and returns
exactly the value of the unchecked code. -/
theorem claim_c8_no_overflow (lhs rhs : Nat) (h1 : 0 < lhs) (h2 : 0 < rhs)
    (hl : lhs < 2 ^ 64) (hr : rhs < 2 ^ 64) :
    gcdPairChecked lhs rhs = some (gcdPair lhs rhs) := by
  have hz : ¬(lhs = 0 ∨ rhs = 0) := by omega
  have hor_pos : 0 < lhs ||| rhs := or_pos_left lhs rhs h1
  have hor_lt : lhs ||| rhs < 2 ^ 64 := Nat.or_lt_two_pow hl hr
  have hshift : trailingZeros (lhs ||| rhs) ≤ 63 := trailingZeros_le_63 _ hor_pos hor_lt
  have htr : trailingZeros rhs ≤ 63 := trailingZeros_le_63 _ h2 hr
  obtain ⟨hrodd, hrfac, hrpos⟩ := oddPart_spec rhs h2 hr
  have hrle : rhs >>> trailingZeros rhs ≤ rhs := oddPart_le rhs
  have hstein := steinLoopF_correct (lhs + rhs >>> trailingZeros rhs + 1) lhs
    (rhs >>> trailingZeros rhs) hrodd hl (by omega) (by omega)
  have hcheck := steinCheckedF_eq (lhs + rhs >>> trailingZeros rhs + 1) lhs
    (rhs >>> trailingZeros rhs) hl (by omega)
  have hgp := gcdPair_eq_gcd lhs rhs hl hr
  have hval : gcdPair lhs rhs < 2 ^ 64 := by
    rw [hgp]
    have := Nat.gcd_le_right (m := lhs) rhs h2
    omega
  have hunfP : gcdPair lhs rhs =
      ((steinLoopF (lhs + rhs >>> trailingZeros rhs + 1) lhs
        (rhs >>> trailingZeros rhs)).getD 0) <<< trailingZeros (lhs ||| rhs) := by
    simp [gcdPair, hz]
  have hgcdshift : Nat.gcd lhs (rhs >>> trailingZeros rhs) <<< trailingZeros (lhs ||| rhs) =
      gcdPair lhs rhs := by
    rw [hunfP, hstein]
    rfl
  have hunfC : gcdPairChecked lhs rhs =
      (match steinCheckedF (lhs + rhs >>> trailingZeros rhs + 1) lhs
          (rhs >>> trailingZeros rhs) with
        | none => none
        | some v =>
          if v <<< trailingZeros (lhs ||| rhs) < 2 ^ 64
          then some (v <<< trailingZeros (lhs ||| rhs)) else none) := by
    simp [gcdPairChecked, hz, Nat.not_lt.mpr hshift, Nat.not_lt.mpr htr]
  rw [hunfC, hcheck, hstein]
  show (if Nat.gcd lhs (rhs >>> trailingZeros rhs) <<< trailingZeros (lhs ||| rhs) < 2 ^ 64
      then some (Nat.gcd lhs (rhs >>> trailingZeros rhs) <<< trailingZeros (lhs ||| rhs))
      else none) = some (gcdPair lhs rhs)
  rw [hgcdshift, if_pos hval]

theorem claim_c8_witness : gcdPairChecked 42 8 = some (gcdPair 42 8) :=
  claim_c8_no_overflow 42 8 (by decide) (by decide) (by decide) (by decide)

/-! Termination: both loops reach their exit condition within an explicit number
of iterations. -/

theorem egcdLoopF_eq : ∀ rhs1 : Nat, ∀ fuel, rhs1 + 1 ≤ fuel →
    ∀ (x y x1 y1 : Int) (lhs1 : Nat),
    egcdLoopF fuel x y x1 y1 lhs1 rhs1 = some (egcdLoop x y x1 y1 lhs1 rhs1) := by
  intro rhs1
  induction rhs1 using Nat.strong_induction_on with
  | _ rhs1 ih =>
    intro fuel hfuel x y x1 y1 lhs1
    match fuel with
    | fuel + 1 =>
      by_cases h : 0 < rhs1
      · have hunfF : egcdLoopF (fuel + 1) x y x1 y1 lhs1 rhs1 =
            egcdLoopF fuel x1 y1
              (wrap64 (x - wrap64 (wrap64 ((lhs1 / rhs1 : Nat) : Int) * x1)))
              (wrap64 (y - wrap64 (wrap64 ((lhs1 / rhs1 : Nat) : Int) * y1)))
              rhs1 (lhs1 - lhs1 / rhs1 * rhs1) := by
          simp [egcdLoopF, h]
        have hunfL : egcdLoop x y x1 y1 lhs1 rhs1 =
            egcdLoop x1 y1
              (wrap64 (x - wrap64 (wrap64 ((lhs1 / rhs1 : Nat) : Int) * x1)))
              (wrap64 (y - wrap64 (wrap64 ((lhs1 / rhs1 : Nat) : Int) * y1)))
              rhs1 (lhs1 - lhs1 / rhs1 * rhs1) := by
          rw [egcdLoop]
          rw [dif_pos h]
        rw [hunfF, hunfL]
        have hlt : lhs1 - lhs1 / rhs1 * rhs1 < rhs1 := by
          have h2 : lhs1 / rhs1 * rhs1 + lhs1 % rhs1 = lhs1 := Nat.div_add_mod' lhs1 rhs1
          have h3 := Nat.mod_lt lhs1 h
          omega
        exact ih _ hlt fuel (by omega) _ _ _ _ _
      · have hz : rhs1 = 0 := by omega
        subst hz
        rw [egcdLoop]
        simp [egcdLoopF]

/-- Claim C9: the subtraction and shift loop of gcd_many exits within
lhs + rhs + 1 iterations for all u64 operands at its loop entry (where rhs has
been stripped to an odd value), and the quotient-remainder loop of extended_gcd
exits within rhs1 + 1 iterations for all inputs, so both calls terminate. -/
theorem claim_c9_termination :
    (∀ lhs rhs : Nat, rhs % 2 = 1 → lhs < 2 ^ 64 → rhs < 2 ^ 64 →
      (steinLoopF (lhs + rhs + 1) lhs rhs).isSome) ∧
      ∀ (x y x1 y1 : Int) (lhs1 rhs1 : Nat),
        egcdLoopF (rhs1 + 1) x y x1 y1 lhs1 rhs1 =
          some (egcdLoop x y x1 y1 lhs1 rhs1) := by
  constructor
  · intro lhs rhs hodd hl hr
    rw [steinLoopF_correct (lhs + rhs + 1) lhs rhs hodd hl hr (le_refl _)]
    rfl
  · intro x y x1 y1 lhs1 rhs1
    exact egcdLoopF_eq rhs1 (rhs1 + 1) (le_refl _) x y x1 y1 lhs1

theorem claim_c9_witness :
    (steinLoopF (42 + 9 + 1) 42 9).isSome ∧
      egcdLoopF (28 + 1) 1 0 0 1 161 28 = some (egcdLoop 1 0 0 1 161 28) :=
  ⟨claim_c9_termination.1 42 9 (by decide) (by decide) (by decide),
    claim_c9_termination.2 1 0 0 1 161 28⟩

/-! Two's complement wrapping: congruence modulo 2^64 and identity on the i64
range. -/

theorem wrap64_eq_self (z : Int) (h1 : -(2 ^ 63) ≤ z) (h2 : z < 2 ^ 63) :
    wrap64 z = z := by
  unfold wrap64
  have h3 : (0 : Int) ≤ z + 2 ^ 63 := by omega
  have h4 : z + 2 ^ 63 < 2 ^ 64 := by omega
  rw [Int.emod_eq_of_lt h3 h4]
  omega

theorem wrap64_sub_dvd (z : Int) : (2 ^ 64 : Int) ∣ (wrap64 z - z) := by
  unfold wrap64
  rw [Int.emod_def]
  refine ⟨-((z + 2 ^ 63) / 2 ^ 64), ?_⟩
  ring

theorem wrap64_congr (u v : Int) (h : (2 ^ 64 : Int) ∣ (u - v)) :
    wrap64 u = wrap64 v := by
  have hu := wrap64_sub_dvd u
  have hv := wrap64_sub_dvd v
  have hd : (2 ^ 64 : Int) ∣ (wrap64 u - wrap64 v) := by
    have key : wrap64 u - wrap64 v = (wrap64 u - u) - (wrap64 v - v) + (u - v) := by
      ring
    rw [key]
    exact dvd_add (dvd_sub hu hv) h
  have hru : -(2 ^ 63) ≤ wrap64 u ∧ wrap64 u < 2 ^ 63 := by
    unfold wrap64
    have h1 : 0 ≤ (u + 2 ^ 63) % 2 ^ 64 := Int.emod_nonneg _ (by norm_num)
    have h2 : (u + 2 ^ 63) % 2 ^ 64 < 2 ^ 64 := Int.emod_lt_of_pos _ (by norm_num)
    omega
  have hrv : -(2 ^ 63) ≤ wrap64 v ∧ wrap64 v < 2 ^ 63 := by
    unfold wrap64
    have h1 : 0 ≤ (v + 2 ^ 63) % 2 ^ 64 := Int.emod_nonneg _ (by norm_num)
    have h2 : (v + 2 ^ 63) % 2 ^ 64 < 2 ^ 64 := Int.emod_lt_of_pos _ (by norm_num)
    omega
  obtain ⟨k, hk⟩ := hd
  omega

theorem wrap64_step (X X1 : Int) (q : Nat) :
    wrap64 (wrap64 X - wrap64 (wrap64 (q : Int) * wrap64 X1)) =
      wrap64 (X - (q : Int) * X1) := by
  apply wrap64_congr
  have h1 := wrap64_sub_dvd X
  have h2 := wrap64_sub_dvd (wrap64 (q : Int) * wrap64 X1)
  have h3 := wrap64_sub_dvd (q : Int)
  have h4 := wrap64_sub_dvd X1
  have key : (wrap64 X - wrap64 (wrap64 (q : Int) * wrap64 X1)) - (X - (q : Int) * X1) =
      (wrap64 X - X) - (wrap64 (wrap64 (q : Int) * wrap64 X1) - wrap64 (q : Int) * wrap64 X1)
        - ((wrap64 (q : Int) - (q : Int)) * wrap64 X1 +
          (q : Int) * (wrap64 X1 - X1)) := by
    ring
  rw [key]
  exact dvd_sub (dvd_sub h1 h2) (dvd_add (h3.mul_right _) (h4.mul_left _))

theorem in_range_of_bound (X Bv : Int) (hBv : Bv < 2 ^ 64)
    (h : |X| ≤ 1 ∨ 2 * |X| ≤ Bv) : -(2 ^ 63) ≤ X ∧ X < 2 ^ 63 := by
  have hx1 : X ≤ |X| := le_abs_self X
  have hx2 : -|X| ≤ X := neg_abs_le X
  rcases h with h | h
  · constructor <;> omega
  · constructor <;> omega

theorem abs_sub_mul_opp (X X1 q : Int) (hq : 0 ≤ q) (h : X * X1 ≤ 0) :
    |X - q * X1| = |X| + q * |X1| := by
  rcases mul_nonpos_iff.mp h with ⟨hX, hX1⟩ | ⟨hX, hX1⟩
  · have hsub : (0 : Int) ≤ X - q * X1 := by nlinarith
    rw [abs_of_nonneg hX, abs_of_nonpos hX1, abs_of_nonneg hsub]
    ring
  · have hsub : X - q * X1 ≤ 0 := by nlinarith
    rw [abs_of_nonpos hX, abs_of_nonneg hX1, abs_of_nonpos hsub]
    ring

/-! Main invariant of the extended Euclid loop. The true (unwrapped) coefficient
values are carried through the induction; the stored i64 values are their wraps.
The magnitude invariants show that the returned coefficients always fit in the
i64 range, so the wrapping of intermediate values never affects the result. -/

theorem egcdLoop_invariant (A B : Nat) (hA : A < 2 ^ 64) (hB : B < 2 ^ 64) :
    ∀ b a : Nat, ∀ X Y X1 Y1 : Int,
    X * X1 ≤ 0 → Y * Y1 ≤ 0 →
    |X1| * (a : Int) + |X| * (b : Int) = (B : Int) →
    |Y1| * (a : Int) + |Y| * (b : Int) = (A : Int) →
    X * (A : Int) + Y * (B : Int) = (a : Int) →
    X1 * (A : Int) + Y1 * (B : Int) = (b : Int) →
    Nat.gcd a b = Nat.gcd A B →
    (|X| ≤ 1 ∨ 2 * |X| ≤ (B : Int)) →
    (|Y| ≤ 1 ∨ 2 * |Y| ≤ (A : Int)) →
    (b < a ∨ (X1 = 0 ∧ Y1 = 1)) →
    (egcdLoop (wrap64 X) (wrap64 Y) (wrap64 X1) (wrap64 Y1) a b).1 = Nat.gcd A B ∧
      (egcdLoop (wrap64 X) (wrap64 Y) (wrap64 X1) (wrap64 Y1) a b).2.1 * (A : Int) +
        (egcdLoop (wrap64 X) (wrap64 Y) (wrap64 X1) (wrap64 Y1) a b).2.2 * (B : Int) =
        ((Nat.gcd A B : Nat) : Int) := by
  intro b
  induction b using Nat.strong_induction_on with
  | _ b ih =>
    intro a X Y X1 Y1 hsX hsY hmX hmY hbzX hbzY hgcd hbX hbY hlast
    by_cases hb : 0 < b
    case neg =>
      have hb0 : b = 0 := by omega
      subst hb0
      have hunf : egcdLoop (wrap64 X) (wrap64 Y) (wrap64 X1) (wrap64 Y1) a 0 =
          (a, wrap64 X, wrap64 Y) := by
        rw [egcdLoop]
        simp
      have hBc : (B : Int) < 2 ^ 64 := by exact_mod_cast hB
      have hAc : (A : Int) < 2 ^ 64 := by exact_mod_cast hA
      obtain ⟨hX1r, hX2r⟩ := in_range_of_bound X (B : Int) hBc hbX
      obtain ⟨hY1r, hY2r⟩ := in_range_of_bound Y (A : Int) hAc hbY
      rw [hunf]
      constructor
      · show a = Nat.gcd A B
        rw [← hgcd]
        exact (Nat.gcd_zero_right a).symm
      · show wrap64 X * (A : Int) + wrap64 Y * (B : Int) = ((Nat.gcd A B : Nat) : Int)
        rw [wrap64_eq_self X hX1r hX2r, wrap64_eq_self Y hY1r hY2r, ← hgcd,
          Nat.gcd_zero_right a]
        exact hbzX
    case pos =>
      have hqnn : (0 : Int) ≤ ((a / b : Nat) : Int) := Int.natCast_nonneg _
      have hle : a / b * b ≤ a := Nat.div_mul_le_self a b
      have hcast : ((a - a / b * b : Nat) : Int) =
          (a : Int) - ((a / b : Nat) : Int) * (b : Int) := by
        rw [Nat.cast_sub hle]
        push_cast
        ring
      have hdm : a / b * b + a % b = a := Nat.div_add_mod' a b
      have hmlt := Nat.mod_lt a hb
      have hbN : a - a / b * b < b := by omega
      have hmod : a - a / b * b = a % b := by omega
      have hunf : egcdLoop (wrap64 X) (wrap64 Y) (wrap64 X1) (wrap64 Y1) a b =
          egcdLoop (wrap64 X1) (wrap64 Y1)
            (wrap64 (X - ((a / b : Nat) : Int) * X1))
            (wrap64 (Y - ((a / b : Nat) : Int) * Y1))
            b (a - a / b * b) := by
        rw [egcdLoop]
        rw [dif_pos hb]
        rw [wrap64_step X X1 (a / b), wrap64_step Y Y1 (a / b)]
      have hsX2 : X1 * (X - ((a / b : Nat) : Int) * X1) ≤ 0 := by
        have key : X1 * (X - ((a / b : Nat) : Int) * X1) =
            X * X1 - ((a / b : Nat) : Int) * (X1 * X1) := by ring
        have hsq : 0 ≤ ((a / b : Nat) : Int) * (X1 * X1) :=
          mul_nonneg hqnn (mul_self_nonneg X1)
        rw [key]
        linarith
      have hsY2 : Y1 * (Y - ((a / b : Nat) : Int) * Y1) ≤ 0 := by
        have key : Y1 * (Y - ((a / b : Nat) : Int) * Y1) =
            Y * Y1 - ((a / b : Nat) : Int) * (Y1 * Y1) := by ring
        have hsq : 0 ≤ ((a / b : Nat) : Int) * (Y1 * Y1) :=
          mul_nonneg hqnn (mul_self_nonneg Y1)
        rw [key]
        linarith
      have hmX2 : |X - ((a / b : Nat) : Int) * X1| * (b : Int) +
          |X1| * ((a - a / b * b : Nat) : Int) = (B : Int) := by
        rw [hcast, abs_sub_mul_opp X X1 _ hqnn hsX]
        linear_combination hmX
      have hmY2 : |Y - ((a / b : Nat) : Int) * Y1| * (b : Int) +
          |Y1| * ((a - a / b * b : Nat) : Int) = (A : Int) := by
        rw [hcast, abs_sub_mul_opp Y Y1 _ hqnn hsY]
        linear_combination hmY
      have hbzY2 : (X - ((a / b : Nat) : Int) * X1) * (A : Int) +
          (Y - ((a / b : Nat) : Int) * Y1) * (B : Int) =
          ((a - a / b * b : Nat) : Int) := by
        rw [hcast]
        linear_combination hbzX - ((a / b : Nat) : Int) * hbzY
      have hgcd2 : Nat.gcd b (a - a / b * b) = Nat.gcd A B := by
        rw [hmod, Nat.gcd_comm b (a % b), ← Nat.gcd_rec b a, Nat.gcd_comm b a, hgcd]
      have hbX2 : |X1| ≤ 1 ∨ 2 * |X1| ≤ (B : Int) := by
        rcases hlast with hba | ⟨hX10, hY11⟩
        · right
          have ha2 : 2 ≤ a := by omega
          have ha2c : (2 : Int) ≤ (a : Int) := by exact_mod_cast ha2
          have h1 : |X1| * 2 ≤ |X1| * (a : Int) :=
            mul_le_mul_of_nonneg_left ha2c (abs_nonneg X1)
          have h2 : 0 ≤ |X| * (b : Int) :=
            mul_nonneg (abs_nonneg X) (Int.natCast_nonneg b)
          linarith
        · left
          rw [hX10]
          simp
      have hbY2 : |Y1| ≤ 1 ∨ 2 * |Y1| ≤ (A : Int) := by
        rcases hlast with hba | ⟨hX10, hY11⟩
        · right
          have ha2 : 2 ≤ a := by omega
          have ha2c : (2 : Int) ≤ (a : Int) := by exact_mod_cast ha2
          have h1 : |Y1| * 2 ≤ |Y1| * (a : Int) :=
            mul_le_mul_of_nonneg_left ha2c (abs_nonneg Y1)
          have h2 : 0 ≤ |Y| * (b : Int) :=
            mul_nonneg (abs_nonneg Y) (Int.natCast_nonneg b)
          linarith
        · left
          rw [hY11]
          simp
      have hres := ih (a - a / b * b) hbN b X1 Y1
        (X - ((a / b : Nat) : Int) * X1) (Y - ((a / b : Nat) : Int) * Y1)
        hsX2 hsY2 hmX2 hmY2 hbzY hbzY2 hgcd2 hbX2 hbY2 (Or.inl hbN)
      rw [hunf]
      exact hres

/-- Claim C2: for every pair of u64 operands, extended_gcd returns a triple
(g, x, y) with x * lhs + y * rhs = g over the integers, and g equal to the gcd
of the pair as computed by the gcd function of the repository. -/
theorem claim_c2_extended_gcd (lhs rhs : Nat) (hl : lhs < 2 ^ 64) (hr : rhs < 2 ^ 64) :
    (extended_gcd lhs rhs).2.1 * (lhs : Int) + (extended_gcd lhs rhs).2.2 * (rhs : Int) =
        ((extended_gcd lhs rhs).1 : Int) ∧
      (extended_gcd lhs rhs).1 = gcd lhs rhs := by
  have hmain := egcdLoop_invariant lhs rhs hl hr rhs lhs 1 0 0 1
    (by norm_num) (by norm_num) (by simp) (by simp) (by simp) (by simp) rfl
    (Or.inl (by norm_num)) (Or.inl (by norm_num)) (Or.inr ⟨rfl, rfl⟩)
  have hw1 : wrap64 1 = 1 := by decide
  have hw0 : wrap64 0 = 0 := by decide
  rw [hw1, hw0] at hmain
  have hdef : extended_gcd lhs rhs = egcdLoop 1 0 0 1 lhs rhs := rfl
  obtain ⟨hg, hbez⟩ := hmain
  constructor
  · rw [hdef, hg]
    exact hbez
  · rw [hdef, hg, gcd_eq_nat_gcd lhs rhs hl hr]

theorem claim_c2_witness :
    (extended_gcd 161 28).2.1 * (161 : Int) + (extended_gcd 161 28).2.2 * (28 : Int) =
        ((extended_gcd 161 28).1 : Int) ∧
      (extended_gcd 161 28).1 = gcd 161 28 :=
  claim_c2_extended_gcd 161 28 (by decide) (by decide)

/-- Claim C6: extended_gcd returns exactly (lhs, 1, 0) when rhs = 0, exactly
(rhs, 0, 1) when lhs = 0 and rhs is nonzero, and exactly (0, 1, 0) on two zero
operands. -/
theorem claim_c6_edges (lhs rhs : Nat) :
    extended_gcd lhs 0 = (lhs, 1, 0) ∧
      (rhs ≠ 0 → extended_gcd 0 rhs = (rhs, 0, 1)) ∧
      extended_gcd 0 0 = (0, 1, 0) := by
  have hw1 : wrap64 1 = 1 := by decide
  have hw0 : wrap64 0 = 0 := by decide
  refine ⟨?_, ?_, ?_⟩
  · show egcdLoop 1 0 0 1 lhs 0 = (lhs, 1, 0)
    rw [egcdLoop]
    simp
  · intro h0
    show egcdLoop 1 0 0 1 0 rhs = (rhs, 0, 1)
    rw [egcdLoop]
    rw [dif_pos (by omega : 0 < rhs)]
    rw [Nat.zero_div]
    norm_num [hw0, hw1]
    rw [egcdLoop]
    simp
  · show egcdLoop 1 0 0 1 0 0 = (0, 1, 0)
    rw [egcdLoop]
    simp

theorem claim_c6_witness :
    extended_gcd 123 0 = (123, 1, 0) ∧ extended_gcd 0 123 = (123, 0, 1) ∧
      extended_gcd 0 0 = (0, 1, 0) :=
  ⟨(claim_c6_edges 123 123).1, (claim_c6_edges 123 123).2.1 (by decide),
    (claim_c6_edges 123 123).2.2⟩

end Ads
